import Mathlib

/-!
# Verification of the xk6-grpc-web client library

A shallow embedding, in Lean 4, of the core of the `grpcweb` Go package:
the dynamic protobuf wire codec used by `buildRequest` / `convertMessageToJSON`,
the `protoCodec` Marshal/Unmarshal pair from `codec.go`, the unary call
lifecycle of `client.Invoke` / `client.AsyncInvoke`, the descriptor store
(`client.Load` / `client.registerMethods` / `walkFileDescriptors`) and the
server-streaming event loop of `stream.begin`.

Bytes are modelled as `List Nat` (each element `< 256` where it matters),
Go machine integers as `Nat` / `Int` with explicit two's-complement
conversions, fallible operations as `Option` / structured result types.
-/

namespace GrpcWeb

/-! ## Wire primitives

The protobuf base-128 varint and little-endian fixed-width encodings.
The repository delegates actual wire encoding to the protobuf runtime
(`proto.Marshal` / `proto.Unmarshal` in `codec.go` and
`convertMessageToJSON`); these definitions model that wire format. -/

/-- Base-128 varint encoding: little-endian 7-bit groups, continuation bit
on every byte except the last. -/
def encodeVarint (n : Nat) : List Nat :=
  if h : n < 128 then [n] else (n % 128 + 128) :: encodeVarint (n / 128)
termination_by n
decreasing_by
  exact Nat.div_lt_self (by omega) (by omega)

/-- Base-128 varint decoding; returns the value and the remaining bytes. -/
def decodeVarint : List Nat → Option (Nat × List Nat)
  | [] => none
  | b :: rest =>
    if b < 128 then some (b, rest)
    else
      match decodeVarint rest with
      | some (n, r) => some ((b - 128) + 128 * n, r)
      | none => none

/-- Little-endian fixed-width encoding of `n` into `w` bytes
(used for the `fixed32` / `fixed64` wire types backing float and double). -/
def encodeFixed : Nat → Nat → List Nat
  | 0, _ => []
  | w + 1, n => n % 256 :: encodeFixed w (n / 256)

/-- Little-endian fixed-width decoding of `w` bytes. -/
def decodeFixed : Nat → List Nat → Option (Nat × List Nat)
  | 0, l => some (0, l)
  | _ + 1, [] => none
  | w + 1, b :: rest =>
    match decodeFixed w rest with
    | some (n, r) => some (b + 256 * n, r)
    | none => none

/-- Two's-complement encoding of a signed 64-bit value as an unsigned 64-bit
pattern, as the protobuf varint wire format does for `int32` / `int64`. -/
def intToU64 (i : Int) : Nat := (i % (2 ^ 64 : Int)).toNat

/-- Interpret an unsigned 64-bit pattern as a two's-complement signed value. -/
def u64ToInt (n : Nat) : Int :=
  if n < 2 ^ 63 then (n : Int) else (n : Int) - 2 ^ 64

/-! ## Dynamic message descriptors and values

The Descriptor Store hands `client.Invoke` / `client.Stream` a method
descriptor whose input/output message descriptors drive the dynamic codec
(spec section 4.2).  A message descriptor is a field table: field number,
cardinality (singular vs repeated) and wire kind — bool, int32/64,
uint32/64, float/double, string, bytes, enum, or a nested message. -/

mutual
/-- A field's wire kind.  `pMessage` carries the nested message descriptor. -/
inductive ProtoType : Type where
  | pBool : ProtoType
  | pInt32 : ProtoType
  | pInt64 : ProtoType
  | pUint32 : ProtoType
  | pUint64 : ProtoType
  | pFloat : ProtoType
  | pDouble : ProtoType
  | pString : ProtoType
  | pBytes : ProtoType
  | pEnum : ProtoType
  | pMessage (fields : FieldList) : ProtoType
/-- A message descriptor: an ordered field table.  Each entry is a field
number, a repeated flag and the field's wire kind. -/
inductive FieldList : Type where
  | fnil : FieldList
  | fcons (num : Nat) (rep : Bool) (t : ProtoType) (rest : FieldList) : FieldList
end

mutual
/-- A host value instance: what a `DynamicMessage` field holds.
Floats and doubles are carried as their IEEE bit patterns (`vBits`);
strings and bytes as raw byte lists; enums and unsigned ints as `Nat`. -/
inductive Value : Type where
  | vBool (b : Bool) : Value
  | vInt (i : Int) : Value
  | vNat (n : Nat) : Value
  | vBits (n : Nat) : Value
  | vBytes (bs : List Nat) : Value
  | vMsg (fields : ValueList) : Value
  | vRep (elems : ValueList) : Value
/-- A list of values: the fields of a message, or the elements of a
repeated field. -/
inductive ValueList : Type where
  | vnil : ValueList
  | vcons (v : Value) (rest : ValueList) : ValueList
end

/-- The protobuf wire type emitted for each field kind: 0 varint,
1 fixed 64-bit, 2 length-delimited, 5 fixed 32-bit. -/
def wireType : ProtoType → Nat
  | .pDouble => 1
  | .pFloat => 5
  | .pString => 2
  | .pBytes => 2
  | .pMessage _ => 2
  | _ => 0

/-- A field's wire tag: field number shifted left by three, plus wire type. -/
def tagOf (num : Nat) (t : ProtoType) : Nat := num * 8 + wireType t

mutual
/-- Does a host value conform to a singular field of the given kind?
Integer kinds carry their width bounds; strings and bytes must be byte
lists; nested messages recurse into the nested descriptor. -/
def conforms : ProtoType → Value → Bool
  | .pBool, .vBool _ => true
  | .pInt32, .vInt i => decide (-(2 ^ 31) ≤ i ∧ i < 2 ^ 31)
  | .pInt64, .vInt i => decide (-(2 ^ 63) ≤ i ∧ i < 2 ^ 63)
  | .pUint32, .vNat n => decide (n < 2 ^ 32)
  | .pUint64, .vNat n => decide (n < 2 ^ 64)
  | .pFloat, .vBits n => decide (n < 2 ^ 32)
  | .pDouble, .vBits n => decide (n < 2 ^ 64)
  | .pString, .vBytes bs => bs.all (fun b => decide (b < 256))
  | .pBytes, .vBytes bs => bs.all (fun b => decide (b < 256))
  | .pEnum, .vNat n => decide (n < 2 ^ 32)
  | .pMessage fs, .vMsg vl => conformsFields fs vl
  | _, _ => false
/-- Does a value list conform to a message descriptor, field by field? -/
def conformsFields : FieldList → ValueList → Bool
  | .fnil, .vnil => true
  | .fcons _ rep t rest, .vcons v vs =>
    (if rep then conformsRep t v else conforms t v) && conformsFields rest vs
  | _, _ => false
/-- A repeated field's value must be a `vRep` of conforming elements. -/
def conformsRep : ProtoType → Value → Bool
  | t, .vRep es => conformsElems t es
  | _, _ => false
/-- Every element of a repeated field conforms to the element kind. -/
def conformsElems : ProtoType → ValueList → Bool
  | _, .vnil => true
  | t, .vcons v vs => conforms t v && conformsElems t vs
end

mutual
/-- Well-formedness of a field kind: a nested message descriptor must be a
well-formed field table. -/
def wfType : ProtoType → Bool
  | .pMessage fs => wfFields 0 fs
  | _ => true
/-- Well-formedness of a field table below a lower bound: field numbers
strictly increase (hence are distinct), and nested descriptors are
well-formed.  Real protobuf descriptors order fields by number. -/
def wfFields : Nat → FieldList → Bool
  | _, .fnil => true
  | prev, .fcons num _ t rest => decide (prev < num) && wfType t && wfFields num rest
end

/-- Number of elements in a value list. -/
def countV : ValueList → Nat
  | .vnil => 0
  | .vcons _ vs => countV vs + 1

mutual
/-- Encode one singular field payload (without its tag) per the wire format:
varint kinds as varints (signed ones via 64-bit two's complement), floats
and doubles as fixed-width little-endian, strings/bytes/nested messages
length-delimited.  Non-conforming values encode to `[]`; the round-trip
theorem assumes conformance. -/
def encodeP : ProtoType → Value → List Nat
  | .pBool, .vBool b => encodeVarint (if b then 1 else 0)
  | .pInt32, .vInt i => encodeVarint (intToU64 i)
  | .pInt64, .vInt i => encodeVarint (intToU64 i)
  | .pUint32, .vNat n => encodeVarint n
  | .pUint64, .vNat n => encodeVarint n
  | .pEnum, .vNat n => encodeVarint n
  | .pFloat, .vBits n => encodeFixed 4 n
  | .pDouble, .vBits n => encodeFixed 8 n
  | .pString, .vBytes bs => encodeVarint bs.length ++ bs
  | .pBytes, .vBytes bs => encodeVarint bs.length ++ bs
  | .pMessage fs, .vMsg vl =>
    encodeVarint (encodeF fs vl).length ++ encodeF fs vl
  | _, _ => []
/-- Encode a message body: each field in descriptor order, tagged; a
repeated field emits one tagged record per element. -/
def encodeF : FieldList → ValueList → List Nat
  | .fnil, _ => []
  | .fcons _ _ _ _, .vnil => []
  | .fcons num rep t rest, .vcons v vs =>
    (if rep then encodeRep num t v else encodeVarint (tagOf num t) ++ encodeP t v)
      ++ encodeF rest vs
/-- Encode a repeated field's value (a `vRep` of elements). -/
def encodeRep (num : Nat) : ProtoType → Value → List Nat
  | t, .vRep es => encodeElems num t es
  | _, _ => []
/-- Encode the elements of a repeated field, one tagged record each. -/
def encodeElems (num : Nat) : ProtoType → ValueList → List Nat
  | _, .vnil => []
  | t, .vcons v vs => encodeVarint (tagOf num t) ++ encodeP t v ++ encodeElems num t vs
end

/-- Greedy decoder for the consecutive records of one repeated field: as
long as the next varint is this field's tag, consume one element with
`decodeElem`; stop at end of input or at a different tag.  `fuel` bounds
the number of iterations (each iteration consumes at least the tag byte,
so `input.length + 1` always suffices). -/
def decodeRepLoop (tg : Nat) (decodeElem : List Nat → Option (Value × List Nat)) :
    Nat → List Nat → Option (ValueList × List Nat)
  | 0, _ => none
  | fuel + 1, input =>
    match decodeVarint input with
    | some (n, r) =>
      if n = tg then
        match decodeElem r with
        | some (v, r2) =>
          match decodeRepLoop tg decodeElem fuel r2 with
          | some (es, r3) => some (.vcons v es, r3)
          | none => none
        | none => none
      else some (.vnil, input)
    | none => some (.vnil, input)

mutual
/-- Decode one singular field payload of the given kind from the front of
the input; returns the value and the remaining bytes. -/
def decodeP : ProtoType → List Nat → Option (Value × List Nat)
  | .pBool, input =>
    match decodeVarint input with
    | some (n, r) => some (.vBool (n != 0), r)
    | none => none
  | .pInt32, input =>
    match decodeVarint input with
    | some (n, r) => some (.vInt (u64ToInt n), r)
    | none => none
  | .pInt64, input =>
    match decodeVarint input with
    | some (n, r) => some (.vInt (u64ToInt n), r)
    | none => none
  | .pUint32, input =>
    match decodeVarint input with
    | some (n, r) => some (.vNat n, r)
    | none => none
  | .pUint64, input =>
    match decodeVarint input with
    | some (n, r) => some (.vNat n, r)
    | none => none
  | .pEnum, input =>
    match decodeVarint input with
    | some (n, r) => some (.vNat n, r)
    | none => none
  | .pFloat, input =>
    match decodeFixed 4 input with
    | some (n, r) => some (.vBits n, r)
    | none => none
  | .pDouble, input =>
    match decodeFixed 8 input with
    | some (n, r) => some (.vBits n, r)
    | none => none
  | .pString, input =>
    match decodeVarint input with
    | some (len, r) =>
      if len ≤ r.length then some (.vBytes (r.take len), r.drop len) else none
    | none => none
  | .pBytes, input =>
    match decodeVarint input with
    | some (len, r) =>
      if len ≤ r.length then some (.vBytes (r.take len), r.drop len) else none
    | none => none
  | .pMessage fs, input =>
    match decodeVarint input with
    | some (len, r) =>
      if len ≤ r.length then
        match decodeF fs (r.take len) with
        | some vl => some (.vMsg vl, r.drop len)
        | none => none
      else none
    | none => none
/-- Decode a whole message body against its descriptor, field by field,
consuming the entire input (a message body is exactly delimited by its
enclosing frame or length prefix). -/
def decodeF : FieldList → List Nat → Option ValueList
  | .fnil, input => if input.isEmpty then some .vnil else none
  | .fcons num rep t rest, input =>
    if rep then
      match decodeRepLoop (tagOf num t) (decodeP t) (input.length + 1) input with
      | some (es, r) =>
        match decodeF rest r with
        | some vs => some (.vcons (.vRep es) vs)
        | none => none
      | none => none
    else
      match decodeVarint input with
      | some (tg, r) =>
        if tg = tagOf num t then
          match decodeP t r with
          | some (v, r2) =>
            match decodeF rest r2 with
            | some vs => some (.vcons v vs)
            | none => none
          | none => none
        else none
      | none => none
end

/-- `encode(descriptor, hostValue)`: the bytes of a request message, as
`client.buildRequest` produces via the dynamic codec. -/
def encodeMessage (fs : FieldList) (vl : ValueList) : List Nat := encodeF fs vl

/-- `decode(descriptor, bytes)`: the host value decoded from response
bytes, as `convertMessageToJSON` produces via the dynamic codec. -/
def decodeMessage (fs : FieldList) (input : List Nat) : Option ValueList :=
  decodeF fs input

/-! ## protoCodec (codec.go)

`protoCodec.Marshal` requires the value to implement `proto.Message` and
marshals it with `proto.MarshalOptions{Deterministic: true}`; the
deterministic mode's one observable effect is that protobuf map fields are
emitted in sorted key order rather than Go map iteration order.
`protoCodec.Unmarshal` special-cases the `*deferredMessage` sentinel: it
copies the frame bytes instead of decoding them, because the Connect
framework re-uses the input slice after the call. -/

/-- A message whose map field's entries arrive in Go map iteration order
(an arbitrary permutation of the semantic map contents). -/
structure MapMessage where
  mapEntries : List (Nat × Nat)

/-- What `protoCodec.Marshal` receives: a `proto.Message` or a value of
some other type (which it must reject). -/
inductive MarshalInput where
  | protoMessage (m : MapMessage)
  | otherValue

/-- Lexicographic order on map entries (key first); on the distinct keys
of an actual map this coincides with key order, which is what the
deterministic marshaler sorts by. -/
def entryLe (a b : Nat × Nat) : Prop := a.1 < b.1 ∨ (a.1 = b.1 ∧ a.2 ≤ b.2)

instance : DecidableRel entryLe := fun a b => by
  unfold entryLe
  infer_instance

instance : IsTotal (Nat × Nat) entryLe :=
  ⟨by intro a b; unfold entryLe; omega⟩

instance : IsTrans (Nat × Nat) entryLe :=
  ⟨by intro a b c; unfold entryLe; omega⟩

instance : IsAntisymm (Nat × Nat) entryLe :=
  ⟨by
    intro a b h1 h2
    unfold entryLe at h1 h2
    have h3 : a.1 = b.1 ∧ a.2 = b.2 := by omega
    obtain ⟨x1, x2⟩ := a
    obtain ⟨y1, y2⟩ := b
    simp only [Prod.mk.injEq]
    simp only at h3
    omega⟩

/-- One map entry on the wire: a length-delimited record holding the key
(field 1, varint) and the value (field 2, varint). -/
def encodeMapEntry (e : Nat × Nat) : List Nat :=
  let body := encodeVarint 8 ++ encodeVarint e.1 ++ encodeVarint 16 ++ encodeVarint e.2
  encodeVarint body.length ++ body

/-- `proto.MarshalOptions{Deterministic: true}.Marshal` on the map field:
entries are emitted in sorted order, independently of the iteration order
they were handed over in.  Modelled from the protobuf runtime's documented
deterministic mode, which `protoCodec.Marshal` selects. -/
def marshalDeterministic (m : MapMessage) : List Nat :=
  ((List.insertionSort entryLe m.mapEntries).map encodeMapEntry).flatten

/-- `protoCodec.Marshal` (codec.go): reject non-`proto.Message` values,
otherwise marshal with the deterministic option. -/
def protoCodec.Marshal (a : MarshalInput) : Option (List Nat) :=
  match a with
  | .protoMessage m => some (marshalDeterministic m)
  | .otherValue => none

/-- A tiny byte-slice heap: Go byte slices are references into backing
arrays.  A location is an index; reading an unallocated location yields
the empty slice. -/
abbrev Heap := List (List Nat)

/-- Read the bytes behind a slice reference. -/
def heapRead (h : Heap) (l : Nat) : List Nat := h.getD l []

/-- Mutate the backing array behind a slice reference in place (what the
Connect transport does to its receive buffer between messages). -/
def heapWrite (h : Heap) (l : Nat) (bs : List Nat) : Heap := h.set l bs

/-- The target argument of `protoCodec.Unmarshal`. -/
inductive UnmarshalTarget where
  | deferredTarget
  | protoTarget (fs : FieldList)
  | otherTarget

/-- What `protoCodec.Unmarshal` did. -/
inductive UnmarshalResult where
  | deferredStored (h : Heap) (loc : Nat)
  | decodedMessage (vl : ValueList)
  | unmarshalError (msg : String)

/-- `protoCodec.Unmarshal` (codec.go): for the `*deferredMessage` target it
allocates a fresh slice (`make([]byte, len(bytes))`), copies the input
bytes into it and stores the reference; for a `proto.Message` target it
decodes against the descriptor; any other target is an error. -/
def protoCodec.Unmarshal (h : Heap) (src : Nat) : UnmarshalTarget → UnmarshalResult
  | .deferredTarget => .deferredStored (h ++ [heapRead h src]) h.length
  | .protoTarget fs =>
    match decodeMessage fs (heapRead h src) with
    | some vl => .decodedMessage vl
    | none => .unmarshalError "cannot unmarshal"
  | .otherTarget => .unmarshalError "does not implement proto.Message"

/-! ## RPC client — unary calls (client.go) -/

/-- A registered method: the full dispatch path resolves to the method's
input and output message descriptors. -/
structure MethodDesc where
  input : FieldList
  output : FieldList

/-- The client's method map `c.mds`, as populated by `registerMethods`. -/
abbrev MethodStore := List (String × MethodDesc)

/-- `c.mds[method]` lookup. -/
def lookupMethod (mds : MethodStore) (method : String) : Option MethodDesc :=
  match mds.find? (fun p => p.1 == method) with
  | some p => some p.2
  | none => none

/-- A structured protocol failure: `*connect.Error` — human-readable
message, structured details, numeric status code. -/
structure ConnectError where
  message : String
  details : List String
  code : Nat

/-- Result of the transport-level unary call. -/
inductive CallOutcome where
  | callSuccess (header trailer : List (String × String)) (data : List Nat)
  | callConnectError (e : ConnectError)
  | callOtherError (msg : String)

/-- The remote's behavior: the outcome it would deliver, and after how many
milliseconds (`none`: it never responds). -/
structure Transport where
  outcome : CallOutcome
  responseTimeMs : Option Nat

/-- The gRPC `DeadlineExceeded` status code. -/
def deadlineExceededCode : Nat := 4

/-- `context.WithTimeout` around `client.CallUnary`: the remote's outcome
arrives if it beats the deadline, otherwise the call fails at the deadline
with a `*connect.Error` carrying DeadlineExceeded.  Modelled from the spec:
dispatch happens under a deadline equal to the resolved timeout and on
expiry fails as TimedOut (deadline exceeded). -/
def callUnary (t : Transport) (deadlineMs : Nat) : CallOutcome × Nat :=
  match t.responseTimeMs with
  | none =>
    (.callConnectError ⟨"context deadline exceeded", [], deadlineExceededCode⟩, deadlineMs)
  | some s =>
    if s < deadlineMs then (t.outcome, s)
    else (.callConnectError ⟨"context deadline exceeded", [], deadlineExceededCode⟩, deadlineMs)

/-- Per-call parameters: `parseCallParams` leaves `timeout` at `0` when the
option is absent; a caller-supplied duration may be any integer. -/
structure CallParams where
  timeoutMs : Int

/-- Two minutes in milliseconds: the default unary deadline
(`timeout = 2 * time.Minute`). -/
def defaultTimeoutMs : Nat := 120000

/-- `invokeResponse` (client.go): headers, trailers and decoded message on
success; error message, details and status code on a protocol failure. -/
structure InvokeResponse where
  header : List (String × String)
  trailer : List (String × String)
  message : Option ValueList
  error : String
  errorDetails : List String
  status : Nat

/-- Externally observable client actions, recorded in program order. -/
inductive ClientAction where
  | builtRequest
  | networkCall

/-- What a `client.Invoke` call produced: the returned response or the
returned error (they are mutually exclusive), the actions taken, and the
time at which the transport call completed. -/
structure InvokeResult where
  response : Option InvokeResponse
  thrown : Option String
  actions : List ClientAction
  completedAtMs : Option Nat

/-- `client.Invoke` (client.go): resolve the method path against `c.mds`
(`method not found` error when absent, before anything else); reject a nil
request; build the request (the host value must fit the input descriptor);
resolve the timeout, defaulting to 2 minutes when unset or non-positive;
dispatch under that deadline; surface a `*connect.Error` as a structured
`invokeResponse` with message/details/status and a nil error; decode a
successful response with the output descriptor. -/
def client.Invoke (mds : MethodStore) (t : Transport) (method : String)
    (req : Option ValueList) (params : CallParams) : InvokeResult :=
  match lookupMethod mds method with
  | none =>
    { response := none,
      thrown := some ("method " ++ method ++ " not found in file descriptors"),
      actions := [], completedAtMs := none }
  | some md =>
    match req with
    | none =>
      { response := none, thrown := some "request cannot be nil",
        actions := [], completedAtMs := none }
    | some reqVal =>
      if conformsFields md.input reqVal then
        let timeoutMs := if params.timeoutMs ≤ 0 then defaultTimeoutMs else params.timeoutMs.toNat
        let r := callUnary t timeoutMs
        match r.1 with
        | .callConnectError e =>
          { response := some { header := [], trailer := [], message := none,
                               error := e.message, errorDetails := e.details,
                               status := e.code },
            thrown := none, actions := [.builtRequest, .networkCall],
            completedAtMs := some r.2 }
        | .callOtherError msg =>
          { response := none, thrown := some msg,
            actions := [.builtRequest, .networkCall], completedAtMs := some r.2 }
        | .callSuccess hdr tr data =>
          match decodeMessage md.output data with
          | some vl =>
            { response := some { header := hdr, trailer := tr, message := some vl,
                                 error := "", errorDetails := [], status := 0 },
              thrown := none, actions := [.builtRequest, .networkCall],
              completedAtMs := some r.2 }
          | none =>
            { response := none, thrown := some "failed to unmarshal the message",
              actions := [.builtRequest, .networkCall], completedAtMs := some r.2 }
      else
        { response := none, thrown := some "failed to build the request",
          actions := [], completedAtMs := none }

/-- The resolution state of the promise `client.AsyncInvoke` returns. -/
inductive PromiseState where
  | resolvedWith (r : InvokeResponse)
  | rejectedWith (msg : String)

/-- What an `client.AsyncInvoke` call produced. -/
structure AsyncInvokeResult where
  promise : PromiseState
  actions : List ClientAction
  completedAtMs : Option Nat

/-- `client.AsyncInvoke` (client.go): same stages as `Invoke`, but failures
reject the returned promise, a `*connect.Error` RESOLVES it with the
structured `invokeResponse` (not a rejection), and completion is marshaled
through `vu.RegisterCallback` onto the event loop before settling. -/
def client.AsyncInvoke (mds : MethodStore) (t : Transport) (method : String)
    (req : Option ValueList) (params : CallParams) : AsyncInvokeResult :=
  match lookupMethod mds method with
  | none =>
    { promise := .rejectedWith ("method " ++ method ++ " not found in file descriptors"),
      actions := [], completedAtMs := none }
  | some md =>
    match req with
    | none =>
      { promise := .rejectedWith "request cannot be nil",
        actions := [], completedAtMs := none }
    | some reqVal =>
      if conformsFields md.input reqVal then
        let timeoutMs := if params.timeoutMs ≤ 0 then defaultTimeoutMs else params.timeoutMs.toNat
        let r := callUnary t timeoutMs
        match r.1 with
        | .callConnectError e =>
          { promise := .resolvedWith { header := [], trailer := [], message := none,
                                       error := e.message, errorDetails := e.details,
                                       status := e.code },
            actions := [.builtRequest, .networkCall], completedAtMs := some r.2 }
        | .callOtherError msg =>
          { promise := .rejectedWith msg,
            actions := [.builtRequest, .networkCall], completedAtMs := some r.2 }
        | .callSuccess hdr tr data =>
          match decodeMessage md.output data with
          | some vl =>
            { promise := .resolvedWith { header := hdr, trailer := tr, message := some vl,
                                         error := "", errorDetails := [], status := 0 },
              actions := [.builtRequest, .networkCall], completedAtMs := some r.2 }
          | none =>
            { promise := .rejectedWith "failed to unmarshal the message",
              actions := [.builtRequest, .networkCall], completedAtMs := some r.2 }
      else
        { promise := .rejectedWith "failed to build the request",
          actions := [], completedAtMs := none }

/-! ## Descriptor store (client.Load / client.registerMethods) -/

/-- A method as listed in a service descriptor. -/
structure MethodD where
  name : String
  isClientStream : Bool
  isServerStream : Bool
deriving DecidableEq

/-- A service descriptor: its full name (package-qualified) and methods. -/
structure ServiceD where
  fullName : String
  methods : List MethodD

/-- A file descriptor: its package and services. -/
structure FileD where
  pkg : String
  services : List ServiceD

/-- The client's method map, modelled extensionally
(`map[string]protoreflect.MethodDescriptor`). -/
abbrev MethodMap := String → Option MethodD

/-- The map a fresh client starts with (`make(map[string]...)`). -/
def emptyMethodMap : MethodMap := fun _ => none

/-- Go map assignment `m[k] = v`: overwrite semantics. -/
def mapInsert (m : MethodMap) (k : String) (v : MethodD) : MethodMap :=
  fun k2 => if k2 = k then some v else m k2

/-- The dispatch path `fmt.Sprintf("/%s/%s", sd.FullName(), md.Name())`. -/
def dispatchPath (sd : ServiceD) (md : MethodD) : String :=
  "/" ++ sd.fullName ++ "/" ++ md.name

/-- Register one service's methods into the map. -/
def registerService (sd : ServiceD) (m : MethodMap) : MethodMap :=
  sd.methods.foldl (fun acc md => mapInsert acc (dispatchPath sd md) md) m

/-- Register one file's services into the map. -/
def registerFile (fd : FileD) (m : MethodMap) : MethodMap :=
  fd.services.foldl (fun acc sd => registerService sd acc) m

/-- `client.registerMethods`: walk every file, service and method of the
descriptor set and assign each method under its full dispatch path.
Successive `Load` calls fold over the client's existing map. -/
def registerMethods (m : MethodMap) (files : List FileD) : MethodMap :=
  files.foldl (fun acc fd => registerFile fd acc) m

/-- The dispatch paths a service contributes. -/
def servicePaths (sd : ServiceD) : List String :=
  sd.methods.map (fun md => dispatchPath sd md)

/-- The dispatch paths a file contributes. -/
def filePaths (fd : FileD) : List String :=
  (fd.services.map servicePaths).flatten

/-- The dispatch paths a file set contributes. -/
def pathsOfFiles (files : List FileD) : List String :=
  (files.map filePaths).flatten

/-! ## Descriptor dependency walk (`walkFileDescriptors`) -/

/-- One node of the file-descriptor dependency graph: a file name and the
names of its declared dependencies. -/
structure FileNode where
  fname : String
  fdeps : List String

/-- A file-descriptor dependency graph. -/
abbrev FDGraph := List FileNode

/-- `fd.GetDependencies()`: the dependency names of a file. -/
def depsOf (g : FDGraph) (n : String) : List String :=
  match g.find? (fun f => f.fname == n) with
  | some f => f.fdeps
  | none => []

/-- The file names of the graph. -/
def graphNames (g : FDGraph) : List String := g.map (fun f => f.fname)

/-- Every declared dependency is itself a file of the graph (true of real
`protoreflect` descriptor graphs, whose dependencies are descriptor
objects). -/
def closedGraph (g : FDGraph) : Bool :=
  g.all (fun f => f.fdeps.all (fun d => decide (d ∈ graphNames g)))

/-- How many files of the graph are not yet in the visited set. -/
def unseenCount (g : FDGraph) (seen : List String) : Nat :=
  ((graphNames g).filter (fun x => decide (x ∉ seen))).length

mutual
/-- `walkFileDescriptors` (client.go): depth-first walk of the dependency
graph.  A file already in `seen` is skipped; otherwise it is marked seen,
emitted, and its dependencies are walked in order.  `fuel` bounds the
recursion depth (Go's call stack); the termination theorem shows that
`|files| + 1` fuel always suffices precisely because the visited set grows
at every non-skipped call, so the recursion cannot revisit a file even in
a cyclic graph.  Returns the final visited set and the emitted file names. -/
def walkFileDescriptors (g : FDGraph) :
    Nat → List String → String → Option (List String × List String)
  | 0, _, _ => none
  | fuel + 1, seen, fd =>
    if fd ∈ seen then some (seen, [])
    else
      match walkDeps g fuel (fd :: seen) (depsOf g fd) with
      | some (seen2, outs) => some (seen2, fd :: outs)
      | none => none
termination_by fuel _ _ => (fuel, 0)
/-- The `for _, dep := range fd.GetDependencies()` loop, threading `seen`. -/
def walkDeps (g : FDGraph) :
    Nat → List String → List String → Option (List String × List String)
  | _, seen, [] => some (seen, [])
  | fuel, seen, d :: ds =>
    match walkFileDescriptors g fuel seen d with
    | some (seen1, o1) =>
      match walkDeps g fuel seen1 ds with
      | some (seen2, o2) => some (seen2, o1 ++ o2)
      | none => none
    | none => none
termination_by fuel _ ds => (fuel, ds.length + 1)
end

/-! ## Streaming engine (`stream.begin`) -/

/-- An event queued for delivery on the single-threaded task queue. -/
inductive StreamEvent where
  | dataEvent (v : ValueList)
  | errorEvent (code : Nat) (msg : String)
  | endEvent

/-- How the receive loop ended: normal completion (`Receive()` returned
false with `Err() == nil`), a structured protocol failure
(`*connect.Error`), or some other receive error. -/
inductive StreamTerm where
  | streamOk
  | streamConnectErr (code : Nat) (msg : String)
  | streamOtherErr (msg : String)

/-- The `for s.stream.Receive()` loop of the `stream.begin` goroutine:
decode each received frame with `convertMessageToJSON`; on success queue a
`data` event (`queueCallback`), on failure log
`failed to unmarshal message` and continue with the next frame.  Returns
the queued events and the log lines, each in order. -/
def streamReceiveLoop (out : FieldList) : List (List Nat) → List StreamEvent × List String
  | [] => ([], [])
  | f :: rest =>
    let r := streamReceiveLoop out rest
    match decodeMessage out f with
    | some v => (.dataEvent v :: r.1, r.2)
    | none => (r.1, "failed to unmarshal message" :: r.2)

/-- The `stream.begin` goroutine (unnamed part_009): run the receive loop;
when `stream.Err()` is non-nil, queue an `error` event if it is a
`*connect.Error` (`queueError`) and log `unexpected error from server`
otherwise; the deferred `queueClose` then queues the single `end` event,
and the deferred `tq.Close` (registered first, so run last) shuts the
queue so no further event for this handle can follow.  The task queue is
FIFO, so the returned event list is the delivery order on the JS thread. -/
def stream.begin (out : FieldList) (frames : List (List Nat)) (term : StreamTerm) :
    List StreamEvent × List String :=
  let r := streamReceiveLoop out frames
  match term with
  | .streamOk => (r.1 ++ [.endEvent], r.2)
  | .streamConnectErr c m => (r.1 ++ [.errorEvent c m, .endEvent], r.2)
  | .streamOtherErr m => (r.1 ++ [.endEvent], r.2 ++ ["unexpected error from server: " ++ m])

/-- The `data` events of the decodable frames, in receipt order. -/
def dataEventsOf (out : FieldList) (frames : List (List Nat)) : List StreamEvent :=
  frames.filterMap (fun f => (decodeMessage out f).map .dataEvent)

/-- The `error` events queued for a termination status. -/
def errorEventsOf (term : StreamTerm) : List StreamEvent :=
  match term with
  | .streamConnectErr c m => [.errorEvent c m]
  | _ => []

/-- The number of `end` events in a delivery sequence. -/
def countEnd : List StreamEvent → Nat
  | [] => 0
  | .endEvent :: rest => countEnd rest + 1
  | _ :: rest => countEnd rest

/-! ## Concrete instances exercised by the verification examples -/

/-- A nested message descriptor: an `int64` and a repeated `uint32`. -/
def demoInner : FieldList :=
  .fcons 1 false .pInt64 (.fcons 2 true .pUint32 .fnil)

/-- A descriptor exercising every supported field kind, nested messages and
repeated forms. -/
def demoDesc : FieldList :=
  .fcons 1 false .pBool (
  .fcons 2 false .pInt32 (
  .fcons 3 false .pUint64 (
  .fcons 4 false .pFloat (
  .fcons 5 false .pDouble (
  .fcons 6 false .pString (
  .fcons 7 false .pBytes (
  .fcons 8 false .pEnum (
  .fcons 9 false (.pMessage demoInner) (
  .fcons 10 true (.pMessage demoInner) (
  .fcons 11 true .pString .fnil))))))))))

/-- A value conforming to `demoInner`. -/
def demoInnerVal : ValueList :=
  .vcons (.vInt (-5)) (.vcons (.vRep (.vcons (.vNat 7) (.vcons (.vNat 300) .vnil))) .vnil)

/-- A value conforming to `demoDesc`. -/
def demoVal : ValueList :=
  .vcons (.vBool true) (
  .vcons (.vInt (-123456)) (
  .vcons (.vNat 999999999999) (
  .vcons (.vBits 1078530011) (
  .vcons (.vBits 4614256656552045848) (
  .vcons (.vBytes [104, 105]) (
  .vcons (.vBytes [0, 255, 3]) (
  .vcons (.vNat 2) (
  .vcons (.vMsg demoInnerVal) (
  .vcons (.vRep (.vcons (.vMsg demoInnerVal) (.vcons (.vMsg demoInnerVal) .vnil))) (
  .vcons (.vRep (.vcons (.vBytes [97]) (.vcons (.vBytes []) .vnil))) .vnil))))))))))

/-- A one-field boolean output descriptor. -/
def demoOut : FieldList := .fcons 1 false .pBool .fnil

/-- A frame that does not decode against `demoOut` (a dangling varint
continuation byte). -/
def badFrame : List Nat := [200]

/-- A frame that decodes against `demoOut` to `true`. -/
def goodFrame : List Nat := [8, 1]

/-- A registered method whose request and response are one boolean field. -/
def demoMethodDesc : MethodDesc := ⟨demoOut, demoOut⟩

/-- A one-method store. -/
def demoStore : MethodStore := [("/helloworld.Greeter/SayHello", demoMethodDesc)]

/-- A request value for `demoMethodDesc`. -/
def demoReq : ValueList := .vcons (.vBool true) .vnil

/-- A structured protocol failure the remote may answer with. -/
def demoConnectError : ConnectError := ⟨"permission denied", ["detail1"], 7⟩

/-- A remote that rejects the call with `demoConnectError` after 50 ms. -/
def demoRejectingTransport : Transport := ⟨.callConnectError demoConnectError, some 50⟩

/-- A remote that never responds. -/
def demoSilentTransport : Transport := ⟨.callSuccess [] [] [], none⟩

/-- A descriptor file declaring `/pkg.S1/M1`. -/
def demoFile1 : FileD := ⟨"pkg", [⟨"pkg.S1", [⟨"M1", false, false⟩]⟩]⟩

/-- A descriptor file declaring `/pkg.S2/M2`, disjoint from `demoFile1`. -/
def demoFile2 : FileD := ⟨"pkg", [⟨"pkg.S2", [⟨"M2", false, true⟩]⟩]⟩

/-- A cyclic two-file dependency graph. -/
def demoCyclicGraph : FDGraph :=
  [⟨"a.proto", ["b.proto"]⟩, ⟨"b.proto", ["a.proto"]⟩]

theorem decodeVarint_encodeVarint (n : Nat) (rest : List Nat) :
    decodeVarint (encodeVarint n ++ rest) = some (n, rest) := by
  induction n using Nat.strong_induction_on with
  | _ n ih =>
    rw [encodeVarint]
    by_cases h : n < 128
    · simp [h, decodeVarint]
    · have hlt : n / 128 < n := Nat.div_lt_self (by omega) (by omega)
      simp only [h, dite_false, List.cons_append, decodeVarint]
      have hge : ¬ (n % 128 + 128 < 128) := by omega
      simp only [hge, if_false, ih (n / 128) hlt]
      simp only [Option.some.injEq, Prod.mk.injEq]
      exact ⟨by omega, trivial⟩

theorem decodeFixed_encodeFixed (w : Nat) :
    ∀ (n : Nat) (rest : List Nat), n < 256 ^ w →
      decodeFixed w (encodeFixed w n ++ rest) = some (n, rest) := by
  induction w with
  | zero =>
    intro n rest h
    simp at h
    simp [h, encodeFixed, decodeFixed]
  | succ w ih =>
    intro n rest h
    have hdiv : n / 256 < 256 ^ w := by
      rw [Nat.div_lt_iff_lt_mul (by omega)]
      calc n < 256 ^ (w + 1) := h
        _ = 256 ^ w * 256 := by ring
    simp only [encodeFixed, List.cons_append, decodeFixed, List.append_eq]
    rw [ih (n / 256) rest hdiv]
    simp only [Option.some.injEq, Prod.mk.injEq]
    exact ⟨by omega, trivial⟩

theorem u64ToInt_intToU64 (i : Int) (h1 : -(2 ^ 63) ≤ i) (h2 : i < 2 ^ 63) :
    u64ToInt (intToU64 i) = i := by
  unfold u64ToInt intToU64
  omega

theorem wireType_lt_eight (t : ProtoType) : wireType t < 8 := by
  cases t <;> simp [wireType]

theorem encodeVarint_length_pos (n : Nat) : 1 ≤ (encodeVarint n).length := by
  rw [encodeVarint]
  split <;> simp

/-- Every element of a repeated field contributes at least its tag byte,
so the element count is bounded by the encoded length. -/
theorem encodeElems_count_le (num : Nat) (t : ProtoType) (es : ValueList) :
    countV es ≤ (encodeElems num t es).length := by
  cases es with
  | vnil => simp [countV]
  | vcons v vs =>
    have ih := encodeElems_count_le num t vs
    have h1 := encodeVarint_length_pos (tagOf num t)
    simp only [countV, encodeElems, List.append_assoc, List.length_append]
    omega
termination_by sizeOf es

/-- A conforming repeated-field value is a `vRep` of conforming elements. -/
theorem conformsRep_vRep (t : ProtoType) (v : Value)
    (h : conformsRep t v = true) :
    ∃ es, v = .vRep es ∧ conformsElems t es = true := by
  cases v <;> simp_all [conformsRep]

mutual
/-- Decoding inverts encoding for one conforming singular field payload,
leaving any following bytes untouched. -/
theorem decodeP_encodeP (t : ProtoType) (v : Value) (rest : List Nat)
    (hwf : wfType t = true) (hc : conforms t v = true) :
    decodeP t (encodeP t v ++ rest) = some (v, rest) := by
  cases t with
  | pBool =>
    cases v <;> (try simp [conforms] at hc)
    rename_i b
    cases b <;> simp [encodeP, decodeP, decodeVarint_encodeVarint]
  | pInt32 =>
    cases v <;> (try simp [conforms] at hc)
    rename_i i
    simp [encodeP, decodeP, decodeVarint_encodeVarint,
      u64ToInt_intToU64 i (by omega) (by omega)]
  | pInt64 =>
    cases v <;> (try simp [conforms] at hc)
    rename_i i
    simp [encodeP, decodeP, decodeVarint_encodeVarint,
      u64ToInt_intToU64 i (by omega) (by omega)]
  | pUint32 =>
    cases v <;> (try simp [conforms] at hc)
    simp [encodeP, decodeP, decodeVarint_encodeVarint]
  | pUint64 =>
    cases v <;> (try simp [conforms] at hc)
    simp [encodeP, decodeP, decodeVarint_encodeVarint]
  | pEnum =>
    cases v <;> (try simp [conforms] at hc)
    simp [encodeP, decodeP, decodeVarint_encodeVarint]
  | pFloat =>
    cases v <;> (try simp [conforms] at hc)
    rename_i n
    have hb : n < 256 ^ 4 := by norm_num; omega
    simp [encodeP, decodeP, decodeFixed_encodeFixed 4 n rest hb]
  | pDouble =>
    cases v <;> (try simp [conforms] at hc)
    rename_i n
    have hb : n < 256 ^ 8 := by norm_num; omega
    simp [encodeP, decodeP, decodeFixed_encodeFixed 8 n rest hb]
  | pString =>
    cases v <;> (try simp [conforms] at hc)
    simp [encodeP, decodeP, List.append_assoc, decodeVarint_encodeVarint,
      List.take_left, List.drop_left]
  | pBytes =>
    cases v <;> (try simp [conforms] at hc)
    simp [encodeP, decodeP, List.append_assoc, decodeVarint_encodeVarint,
      List.take_left, List.drop_left]
  | pMessage fs =>
    cases v <;> (try simp [conforms] at hc)
    rename_i vl
    simp only [wfType] at hwf
    have hbody := decodeF_encodeF fs vl 0 hwf hc
    simp [encodeP, decodeP, List.append_assoc, decodeVarint_encodeVarint,
      List.take_left, List.drop_left, hbody]
termination_by (sizeOf t, sizeOf v)

/-- Decoding inverts encoding for a whole conforming message body, against a
well-formed descriptor (field numbers strictly increasing above `lo`). -/
theorem decodeF_encodeF (fs : FieldList) (vl : ValueList) (lo : Nat)
    (hwf : wfFields lo fs = true) (hc : conformsFields fs vl = true) :
    decodeF fs (encodeF fs vl) = some vl := by
  cases fs with
  | fnil =>
    cases vl with
    | vnil => simp [encodeF, decodeF]
    | vcons v vs => simp [conformsFields] at hc
  | fcons num rep t rest =>
    cases vl with
    | vnil => simp [conformsFields] at hc
    | vcons v vs =>
      simp only [wfFields, Bool.and_eq_true, decide_eq_true_eq] at hwf
      obtain ⟨⟨hlt, hwt⟩, hwr⟩ := hwf
      cases rep with
      | false =>
        simp [conformsFields] at hc
        obtain ⟨hcv, hcs⟩ := hc
        have h1 := decodeP_encodeP t v (encodeF rest vs) hwt hcv
        have h2 := decodeF_encodeF rest vs num hwr hcs
        simp [encodeF, decodeF, List.append_assoc, decodeVarint_encodeVarint, h1, h2]
      | true =>
        simp [conformsFields] at hc
        obtain ⟨hcv, hcs⟩ := hc
        obtain ⟨es, rfl, hces⟩ := conformsRep_vRep t v hcv
        have htail : ∀ n r, decodeVarint (encodeF rest vs) = some (n, r) →
            n ≠ tagOf num t := by
          intro n r hdr
          obtain ⟨m, hm1, hm2, hm3⟩ := encodeF_headTag rest vs num hwr hcs n r hdr
          have hwt8 := wireType_lt_eight t
          simp only [tagOf]
          omega
        have hcount := encodeElems_count_le num t es
        have hloop := decodeRepLoop_encodeElems num t es
          ((encodeElems num t es ++ encodeF rest vs).length + 1) (encodeF rest vs)
          hwt hces (by simp only [List.length_append]; omega) htail
        simp only [List.length_append] at hloop
        have h2 := decodeF_encodeF rest vs num hwr hcs
        simp [encodeF, encodeRep, decodeF, hloop, h2]
termination_by (sizeOf fs, sizeOf vl)

/-- The greedy repeated-field loop consumes exactly the encoded elements and
stops at the following bytes, provided those do not start with this field's
tag and the fuel covers the element count. -/
theorem decodeRepLoop_encodeElems (num : Nat) (t : ProtoType) (es : ValueList)
    (fuel : Nat) (tail : List Nat)
    (hwf : wfType t = true) (hc : conformsElems t es = true)
    (hfuel : countV es + 1 ≤ fuel)
    (htail : ∀ n r, decodeVarint tail = some (n, r) → n ≠ tagOf num t) :
    decodeRepLoop (tagOf num t) (decodeP t) fuel (encodeElems num t es ++ tail)
      = some (es, tail) := by
  cases es with
  | vnil =>
    cases fuel with
    | zero => omega
    | succ f =>
      simp only [encodeElems, List.nil_append]
      cases hdv : decodeVarint tail with
      | none => simp [decodeRepLoop, hdv]
      | some p =>
        obtain ⟨n, r⟩ := p
        have hne := htail n r hdv
        simp [decodeRepLoop, hdv, hne]
  | vcons v vs =>
    simp only [countV] at hfuel
    cases fuel with
    | zero => omega
    | succ f =>
      simp only [conformsElems, Bool.and_eq_true] at hc
      obtain ⟨hcv, hcs⟩ := hc
      have h1 := decodeP_encodeP t v (encodeElems num t vs ++ tail) hwf hcv
      have h2 := decodeRepLoop_encodeElems num t vs f tail hwf hcs (by omega) htail
      simp [encodeElems, List.append_assoc, decodeRepLoop, decodeVarint_encodeVarint,
        h1, h2]
termination_by (sizeOf t, sizeOf es)

/-- Any tag read off the front of an encoded message body belongs to some
field whose number exceeds the descriptor's lower bound: the following
fields of a well-formed descriptor can never reproduce an earlier tag. -/
theorem encodeF_headTag (fs : FieldList) (vl : ValueList) (lo : Nat)
    (hwf : wfFields lo fs = true) (hc : conformsFields fs vl = true) :
    ∀ n r, decodeVarint (encodeF fs vl) = some (n, r) →
      ∃ m, lo < m ∧ m * 8 ≤ n ∧ n < m * 8 + 8 := by
  cases fs with
  | fnil =>
    intro n r hd
    simp [encodeF, decodeVarint] at hd
  | fcons num rep t rest =>
    cases vl with
    | vnil => simp [conformsFields] at hc
    | vcons v vs =>
      simp only [wfFields, Bool.and_eq_true, decide_eq_true_eq] at hwf
      obtain ⟨⟨hlt, hwt⟩, hwr⟩ := hwf
      cases rep with
      | false =>
        simp [conformsFields] at hc
        obtain ⟨hcv, hcs⟩ := hc
        intro n r hd
        simp [encodeF, List.append_assoc, decodeVarint_encodeVarint] at hd
        obtain ⟨hn, _⟩ := hd
        have hwt8 := wireType_lt_eight t
        refine ⟨num, hlt, ?_, ?_⟩ <;> simp only [tagOf] at hn <;> omega
      | true =>
        simp [conformsFields] at hc
        obtain ⟨hcv, hcs⟩ := hc
        obtain ⟨es, rfl, hces⟩ := conformsRep_vRep t v hcv
        cases es with
        | vnil =>
          intro n r hd
          simp [encodeF, encodeRep, encodeElems] at hd
          obtain ⟨m, hm1, hm2, hm3⟩ := encodeF_headTag rest vs num hwr hcs n r hd
          exact ⟨m, by omega, hm2, hm3⟩
        | vcons e es2 =>
          intro n r hd
          simp [encodeF, encodeRep, encodeElems, List.append_assoc,
            decodeVarint_encodeVarint] at hd
          obtain ⟨hn, _⟩ := hd
          have hwt8 := wireType_lt_eight t
          refine ⟨num, hlt, ?_, ?_⟩ <;> simp only [tagOf] at hn <;> omega
termination_by (sizeOf fs, sizeOf vl)
end

/-- C2: for every host value that conforms to a method's message descriptor
and uses only the supported field kinds (bool, 32/64-bit signed and
unsigned integers, 32/64-bit floats, string, bytes, enum, nested message,
and repeated forms of each), decoding the encoding of that value yields
the value back: `decode(encode(value)) == value`. -/
theorem claim_codec_roundtrip (fs : FieldList) (vl : ValueList)
    (hwf : wfFields 0 fs = true) (hc : conformsFields fs vl = true) :
    decodeMessage fs (encodeMessage fs vl) = some vl :=
  decodeF_encodeF fs vl 0 hwf hc

/-- Witness for C2: the round trip at a concrete descriptor and value
covering every supported field kind, nested messages and repeated forms. -/
theorem claim_codec_roundtrip_witness :
    wfFields 0 demoDesc = true ∧ conformsFields demoDesc demoVal = true ∧
    decodeMessage demoDesc (encodeMessage demoDesc demoVal) = some demoVal :=
  ⟨by decide, by decide, claim_codec_roundtrip demoDesc demoVal (by decide) (by decide)⟩

/-- C10: request encoding is deterministic — `protoCodec.Marshal` is
configured with `Deterministic: true`, so two marshal runs over equal
values (the same map contents, handed over in any two iteration orders)
produce identical byte sequences. -/
theorem claim_marshal_deterministic (m1 m2 : MapMessage)
    (h : m1.mapEntries.Perm m2.mapEntries) :
    protoCodec.Marshal (.protoMessage m1) = protoCodec.Marshal (.protoMessage m2) := by
  have hs1 := List.sorted_insertionSort entryLe m1.mapEntries
  have hs2 := List.sorted_insertionSort entryLe m2.mapEntries
  have hp : (List.insertionSort entryLe m1.mapEntries).Perm
      (List.insertionSort entryLe m2.mapEntries) :=
    ((List.perm_insertionSort entryLe m1.mapEntries).trans h).trans
      (List.perm_insertionSort entryLe m2.mapEntries).symm
  have heq := List.eq_of_perm_of_sorted hp hs1 hs2
  simp [protoCodec.Marshal, marshalDeterministic, heq]

/-- Witness for C10: the same two-entry map in two iteration orders
marshals identically. -/
theorem claim_marshal_deterministic_witness :
    (MapMessage.mk [(2, 5), (1, 9)]).mapEntries.Perm
      (MapMessage.mk [(1, 9), (2, 5)]).mapEntries ∧
    protoCodec.Marshal (.protoMessage (MapMessage.mk [(2, 5), (1, 9)]))
      = protoCodec.Marshal (.protoMessage (MapMessage.mk [(1, 9), (2, 5)])) :=
  ⟨by decide,
   claim_marshal_deterministic (MapMessage.mk [(2, 5), (1, 9)])
     (MapMessage.mk [(1, 9), (2, 5)]) (by decide)⟩

/-- C3: `protoCodec.Unmarshal` into a `deferredMessage` target stores a
fresh copy of the input byte slice: the captured bytes equal the input
bytes at capture time, and any later in-place mutation of the source slice
leaves the captured bytes unchanged (copy, not alias). -/
theorem claim_unmarshal_deferred_copies (h : Heap) (src : Nat)
    (hsrc : src < h.length) :
    ∃ h2 loc, protoCodec.Unmarshal h src .deferredTarget = .deferredStored h2 loc ∧
      heapRead h2 loc = heapRead h src ∧
      ∀ bs2, heapRead (heapWrite h2 src bs2) loc = heapRead h src := by
  refine ⟨h ++ [heapRead h src], h.length, rfl, ?_, ?_⟩
  · simp [heapRead, List.getD_eq_getElem?_getD, List.getElem?_concat_length]
  · intro bs2
    simp only [heapWrite, heapRead, List.getD_eq_getElem?_getD]
    rw [List.getElem?_set_ne (by omega)]
    simp [List.getElem?_concat_length]

/-- Witness for C3 at a concrete one-slice heap. -/
theorem claim_unmarshal_deferred_copies_witness :
    0 < ([[1, 2, 3]] : Heap).length ∧
    ∃ h2 loc, protoCodec.Unmarshal [[1, 2, 3]] 0 .deferredTarget = .deferredStored h2 loc ∧
      heapRead h2 loc = heapRead [[1, 2, 3]] 0 ∧
      ∀ bs2, heapRead (heapWrite h2 0 bs2) loc = heapRead [[1, 2, 3]] 0 :=
  ⟨by decide, claim_unmarshal_deferred_copies [[1, 2, 3]] 0 (by decide)⟩

/-- C4: whenever the remote explicitly rejects a unary call with a status
code, `Invoke` returns — and `AsyncInvoke` resolves with — a structured
outcome carrying the message, the error details and the numeric status
code, and does not report the failure as a client error (no thrown error,
no rejection). -/
theorem claim_protocol_failure_structured (mds : MethodStore) (t : Transport)
    (method : String) (md : MethodDesc) (req : ValueList) (params : CallParams)
    (e : ConnectError) (s : Nat)
    (hm : lookupMethod mds method = some md)
    (hc : conformsFields md.input req = true)
    (hout : t.outcome = .callConnectError e)
    (ht : t.responseTimeMs = some s)
    (hs : s < if params.timeoutMs ≤ 0 then defaultTimeoutMs else params.timeoutMs.toNat) :
    (client.Invoke mds t method (some req) params).response
        = some { header := [], trailer := [], message := none,
                 error := e.message, errorDetails := e.details, status := e.code } ∧
    (client.Invoke mds t method (some req) params).thrown = none ∧
    (client.AsyncInvoke mds t method (some req) params).promise
        = .resolvedWith { header := [], trailer := [], message := none,
                          error := e.message, errorDetails := e.details,
                          status := e.code } := by
  simp [client.Invoke, client.AsyncInvoke, hm, hc, callUnary, ht, hout, hs]

/-- Witness for C4: a remote rejecting with PermissionDenied after 50 ms. -/
theorem claim_protocol_failure_structured_witness :
    lookupMethod demoStore "/helloworld.Greeter/SayHello" = some demoMethodDesc ∧
    conformsFields demoMethodDesc.input demoReq = true ∧
    demoRejectingTransport.outcome = .callConnectError demoConnectError ∧
    demoRejectingTransport.responseTimeMs = some 50 ∧
    (client.Invoke demoStore demoRejectingTransport "/helloworld.Greeter/SayHello"
        (some demoReq) ⟨0⟩).response
      = some { header := [], trailer := [], message := none,
               error := demoConnectError.message,
               errorDetails := demoConnectError.details,
               status := demoConnectError.code } ∧
    (client.AsyncInvoke demoStore demoRejectingTransport "/helloworld.Greeter/SayHello"
        (some demoReq) ⟨0⟩).promise
      = .resolvedWith { header := [], trailer := [], message := none,
                        error := demoConnectError.message,
                        errorDetails := demoConnectError.details,
                        status := demoConnectError.code } :=
  ⟨rfl, by decide, rfl, rfl,
   (claim_protocol_failure_structured demoStore demoRejectingTransport
      "/helloworld.Greeter/SayHello" demoMethodDesc demoReq ⟨0⟩ demoConnectError 50
      rfl (by decide) rfl rfl (by decide)).1,
   (claim_protocol_failure_structured demoStore demoRejectingTransport
      "/helloworld.Greeter/SayHello" demoMethodDesc demoReq ⟨0⟩ demoConnectError 50
      rfl (by decide) rfl rfl (by decide)).2.2⟩

/-- C5: when the timeout option is unset (parseCallParams leaves 0) or
non-positive, the call is dispatched under a deadline of exactly 2 minutes
(120000 ms); against a remote that never responds it fails as deadline
exceeded (TimedOut) at exactly that deadline — not earlier, not
indefinitely — for both `Invoke` and `AsyncInvoke`. -/
theorem claim_default_timeout (mds : MethodStore) (t : Transport) (method : String)
    (md : MethodDesc) (req : ValueList) (params : CallParams)
    (hm : lookupMethod mds method = some md)
    (hc : conformsFields md.input req = true)
    (hto : params.timeoutMs ≤ 0)
    (hnever : t.responseTimeMs = none) :
    (client.Invoke mds t method (some req) params).response
        = some { header := [], trailer := [], message := none,
                 error := "context deadline exceeded", errorDetails := [],
                 status := deadlineExceededCode } ∧
    (client.Invoke mds t method (some req) params).completedAtMs
        = some defaultTimeoutMs ∧
    (client.AsyncInvoke mds t method (some req) params).promise
        = .resolvedWith { header := [], trailer := [], message := none,
                          error := "context deadline exceeded", errorDetails := [],
                          status := deadlineExceededCode } ∧
    (client.AsyncInvoke mds t method (some req) params).completedAtMs
        = some defaultTimeoutMs := by
  simp [client.Invoke, client.AsyncInvoke, hm, hc, callUnary, hnever, hto]

/-- Witness for C5: the silent remote and an absent timeout option. -/
theorem claim_default_timeout_witness :
    lookupMethod demoStore "/helloworld.Greeter/SayHello" = some demoMethodDesc ∧
    ((0 : Int) ≤ 0) ∧ demoSilentTransport.responseTimeMs = none ∧
    (client.Invoke demoStore demoSilentTransport "/helloworld.Greeter/SayHello"
        (some demoReq) ⟨0⟩).completedAtMs = some defaultTimeoutMs ∧
    (client.AsyncInvoke demoStore demoSilentTransport "/helloworld.Greeter/SayHello"
        (some demoReq) ⟨0⟩).completedAtMs = some defaultTimeoutMs :=
  ⟨rfl, by decide, rfl,
   (claim_default_timeout demoStore demoSilentTransport "/helloworld.Greeter/SayHello"
      demoMethodDesc demoReq ⟨0⟩ rfl (by decide) (by decide) rfl).2.1,
   (claim_default_timeout demoStore demoSilentTransport "/helloworld.Greeter/SayHello"
      demoMethodDesc demoReq ⟨0⟩ rfl (by decide) (by decide) rfl).2.2.2⟩

/-- C6: a method path that is not registered makes `Invoke` fail with a
method-not-found error for any request, before building a request and
without any network call (no recorded actions at all). -/
theorem claim_unknown_method (mds : MethodStore) (t : Transport) (method : String)
    (req : Option ValueList) (params : CallParams)
    (hm : lookupMethod mds method = none) :
    (client.Invoke mds t method req params).thrown
        = some ("method " ++ method ++ " not found in file descriptors") ∧
    (client.Invoke mds t method req params).response = none ∧
    (client.Invoke mds t method req params).actions = [] := by
  simp [client.Invoke, hm]

/-- Witness for C6: an unregistered path against the demo store. -/
theorem claim_unknown_method_witness :
    lookupMethod demoStore "/pkg.Svc/NoSuchMethod" = none ∧
    (client.Invoke demoStore demoRejectingTransport "/pkg.Svc/NoSuchMethod"
        (some demoReq) ⟨0⟩).thrown
      = some ("method " ++ "/pkg.Svc/NoSuchMethod" ++ " not found in file descriptors") ∧
    (client.Invoke demoStore demoRejectingTransport "/pkg.Svc/NoSuchMethod"
        (some demoReq) ⟨0⟩).actions = [] :=
  ⟨rfl,
   (claim_unknown_method demoStore demoRejectingTransport "/pkg.Svc/NoSuchMethod"
      (some demoReq) ⟨0⟩ rfl).1,
   (claim_unknown_method demoStore demoRejectingTransport "/pkg.Svc/NoSuchMethod"
      (some demoReq) ⟨0⟩ rfl).2.2⟩

/-! ### Method map registration lemmas (for `client.Load`) -/

/-- A fold of map assignments leaves keys it never assigns untouched. -/
theorem foldl_mapInsert_notin (f : MethodD → String) (ms : List MethodD)
    (m : MethodMap) (k : String) (h : ∀ md ∈ ms, f md ≠ k) :
    ms.foldl (fun acc md => mapInsert acc (f md) md) m k = m k := by
  induction ms generalizing m with
  | nil => rfl
  | cons a l ih =>
    rw [List.foldl_cons, ih _ (fun md hm => h md (List.mem_cons_of_mem a hm))]
    unfold mapInsert
    rw [if_neg (fun hk => h a (List.mem_cons_self a l) hk.symm)]

/-- A fold of map assignments determines an assigned key's value
independently of the starting map. -/
theorem foldl_mapInsert_congr (f : MethodD → String) (ms : List MethodD)
    (m1 m2 : MethodMap) (k : String) (h : k ∈ ms.map f) :
    ms.foldl (fun acc md => mapInsert acc (f md) md) m1 k
      = ms.foldl (fun acc md => mapInsert acc (f md) md) m2 k := by
  induction ms generalizing m1 m2 with
  | nil => simp at h
  | cons a l ih =>
    by_cases hl : k ∈ l.map f
    · rw [List.foldl_cons, List.foldl_cons]
      exact ih _ _ hl
    · have hnl : ∀ md ∈ l, f md ≠ k := by
        intro md hm heq
        exact hl (heq ▸ List.mem_map_of_mem f hm)
      rw [List.foldl_cons, List.foldl_cons,
        foldl_mapInsert_notin f l _ k hnl, foldl_mapInsert_notin f l _ k hnl]
      have hk : k = f a := by
        rcases List.mem_map.1 h with ⟨md, hmd, heq⟩
        rcases List.mem_cons.1 hmd with h1 | h2
        · rw [h1] at heq
          exact heq.symm
        · exact absurd heq (hnl md h2)
      unfold mapInsert
      rw [if_pos hk, if_pos hk]

/-- A fold of map assignments makes every assigned key resolvable. -/
theorem foldl_mapInsert_isSome (f : MethodD → String) (ms : List MethodD)
    (m : MethodMap) (k : String) (h : k ∈ ms.map f) :
    (ms.foldl (fun acc md => mapInsert acc (f md) md) m k).isSome := by
  induction ms generalizing m with
  | nil => simp at h
  | cons a l ih =>
    by_cases hl : k ∈ l.map f
    · rw [List.foldl_cons]
      exact ih _ hl
    · have hnl : ∀ md ∈ l, f md ≠ k := by
        intro md hm heq
        exact hl (heq ▸ List.mem_map_of_mem f hm)
      have hk : k = f a := by
        rcases List.mem_map.1 h with ⟨md, hmd, heq⟩
        rcases List.mem_cons.1 hmd with h1 | h2
        · rw [h1] at heq
          exact heq.symm
        · exact absurd heq (hnl md h2)
      rw [List.foldl_cons, foldl_mapInsert_notin f l _ k hnl]
      unfold mapInsert
      rw [if_pos hk]
      rfl

/-- `registerService` leaves paths outside the service untouched. -/
theorem registerService_notin (sd : ServiceD) (m : MethodMap) (k : String)
    (h : k ∉ servicePaths sd) : registerService sd m k = m k := by
  unfold registerService
  refine foldl_mapInsert_notin _ _ _ _ ?_
  intro md hm heq
  exact h (heq ▸ List.mem_map_of_mem _ hm)

/-- `registerService` determines its own paths independently of the map. -/
theorem registerService_congr (sd : ServiceD) (m1 m2 : MethodMap) (k : String)
    (h : k ∈ servicePaths sd) :
    registerService sd m1 k = registerService sd m2 k := by
  unfold registerService
  exact foldl_mapInsert_congr _ _ _ _ _ h

/-- `registerService` makes every one of its paths resolvable. -/
theorem registerService_isSome (sd : ServiceD) (m : MethodMap) (k : String)
    (h : k ∈ servicePaths sd) : (registerService sd m k).isSome := by
  unfold registerService
  exact foldl_mapInsert_isSome _ _ _ _ h

/-- A fold of service registrations leaves paths outside all services
untouched. -/
theorem foldl_registerService_notin (sds : List ServiceD) (m : MethodMap) (k : String)
    (h : ∀ sd ∈ sds, k ∉ servicePaths sd) :
    sds.foldl (fun acc sd => registerService sd acc) m k = m k := by
  induction sds generalizing m with
  | nil => rfl
  | cons a l ih =>
    rw [List.foldl_cons, ih _ (fun sd hm => h sd (List.mem_cons_of_mem a hm))]
    exact registerService_notin a m k (h a (List.mem_cons_self a l))

/-- A fold of service registrations determines a registered path
independently of the starting map. -/
theorem foldl_registerService_congr (sds : List ServiceD) (m1 m2 : MethodMap)
    (k : String) (h : ∃ sd ∈ sds, k ∈ servicePaths sd) :
    sds.foldl (fun acc sd => registerService sd acc) m1 k
      = sds.foldl (fun acc sd => registerService sd acc) m2 k := by
  induction sds generalizing m1 m2 with
  | nil => simp at h
  | cons a l ih =>
    by_cases hl : ∃ sd ∈ l, k ∈ servicePaths sd
    · rw [List.foldl_cons, List.foldl_cons]
      exact ih _ _ hl
    · have hnl : ∀ sd ∈ l, k ∉ servicePaths sd := by
        intro sd hm hk
        exact hl ⟨sd, hm, hk⟩
      have hk : k ∈ servicePaths a := by
        rcases h with ⟨sd, hmd, hin⟩
        rcases List.mem_cons.1 hmd with h1 | h2
        · rw [← h1]
          exact hin
        · exact absurd hin (hnl sd h2)
      rw [List.foldl_cons, List.foldl_cons,
        foldl_registerService_notin l _ k hnl, foldl_registerService_notin l _ k hnl]
      exact registerService_congr a m1 m2 k hk

/-- A fold of service registrations makes every registered path
resolvable. -/
theorem foldl_registerService_isSome (sds : List ServiceD) (m : MethodMap)
    (k : String) (h : ∃ sd ∈ sds, k ∈ servicePaths sd) :
    ((sds.foldl (fun acc sd => registerService sd acc) m) k).isSome := by
  induction sds generalizing m with
  | nil => simp at h
  | cons a l ih =>
    by_cases hl : ∃ sd ∈ l, k ∈ servicePaths sd
    · rw [List.foldl_cons]
      exact ih _ hl
    · have hnl : ∀ sd ∈ l, k ∉ servicePaths sd := by
        intro sd hm hk
        exact hl ⟨sd, hm, hk⟩
      have hk : k ∈ servicePaths a := by
        rcases h with ⟨sd, hmd, hin⟩
        rcases List.mem_cons.1 hmd with h1 | h2
        · rw [← h1]
          exact hin
        · exact absurd hin (hnl sd h2)
      rw [List.foldl_cons, foldl_registerService_notin l _ k hnl]
      exact registerService_isSome a m k hk

/-- Membership in a file's paths is membership in one of its services. -/
theorem mem_filePaths (fd : FileD) (k : String) :
    k ∈ filePaths fd ↔ ∃ sd ∈ fd.services, k ∈ servicePaths sd := by
  unfold filePaths
  simp [List.mem_flatten]

/-- `registerFile` leaves paths outside the file untouched. -/
theorem registerFile_notin (fd : FileD) (m : MethodMap) (k : String)
    (h : k ∉ filePaths fd) : registerFile fd m k = m k := by
  unfold registerFile
  refine foldl_registerService_notin _ _ _ ?_
  intro sd hm hk
  exact h ((mem_filePaths fd k).2 ⟨sd, hm, hk⟩)

/-- `registerFile` determines its own paths independently of the map. -/
theorem registerFile_congr (fd : FileD) (m1 m2 : MethodMap) (k : String)
    (h : k ∈ filePaths fd) :
    registerFile fd m1 k = registerFile fd m2 k := by
  unfold registerFile
  exact foldl_registerService_congr _ _ _ _ ((mem_filePaths fd k).1 h)

/-- `registerFile` makes every one of its paths resolvable. -/
theorem registerFile_isSome (fd : FileD) (m : MethodMap) (k : String)
    (h : k ∈ filePaths fd) : (registerFile fd m k).isSome := by
  unfold registerFile
  exact foldl_registerService_isSome _ _ _ ((mem_filePaths fd k).1 h)

/-- Membership in a file set's paths is membership in one of its files. -/
theorem mem_pathsOfFiles (files : List FileD) (k : String) :
    k ∈ pathsOfFiles files ↔ ∃ fd ∈ files, k ∈ filePaths fd := by
  unfold pathsOfFiles
  simp [List.mem_flatten]

/-- `registerMethods` leaves paths outside the file set untouched. -/
theorem registerMethods_notin (files : List FileD) (m : MethodMap) (k : String)
    (h : k ∉ pathsOfFiles files) : registerMethods m files k = m k := by
  unfold registerMethods
  induction files generalizing m with
  | nil => rfl
  | cons a l ih =>
    have hna : k ∉ filePaths a := by
      intro hk
      exact h ((mem_pathsOfFiles (a :: l) k).2 ⟨a, List.mem_cons_self a l, hk⟩)
    have hnl : k ∉ pathsOfFiles l := by
      intro hk
      rcases (mem_pathsOfFiles l k).1 hk with ⟨fd, hm, hin⟩
      exact h ((mem_pathsOfFiles (a :: l) k).2 ⟨fd, List.mem_cons_of_mem a hm, hin⟩)
    rw [List.foldl_cons, ih _ hnl]
    exact registerFile_notin a m k hna

/-- `registerMethods` determines every path of its file set independently
of the starting map. -/
theorem registerMethods_congr (files : List FileD) (m1 m2 : MethodMap) (k : String)
    (h : k ∈ pathsOfFiles files) :
    registerMethods m1 files k = registerMethods m2 files k := by
  unfold registerMethods
  induction files generalizing m1 m2 with
  | nil => simp [pathsOfFiles] at h
  | cons a l ih =>
    by_cases hl : k ∈ pathsOfFiles l
    · rw [List.foldl_cons, List.foldl_cons]
      exact ih _ _ hl
    · have hnl : k ∉ pathsOfFiles l := hl
      have hk : k ∈ filePaths a := by
        rcases (mem_pathsOfFiles (a :: l) k).1 h with ⟨fd, hmd, hin⟩
        rcases List.mem_cons.1 hmd with h1 | h2
        · rw [← h1]
          exact hin
        · exact absurd ((mem_pathsOfFiles l k).2 ⟨fd, h2, hin⟩) hnl
      have hrw : ∀ m0 : MethodMap,
          (l.foldl (fun acc fd => registerFile fd acc) m0) k = m0 k := by
        intro m0
        have := registerMethods_notin l m0 k hnl
        unfold registerMethods at this
        exact this
      rw [List.foldl_cons, List.foldl_cons, hrw, hrw]
      exact registerFile_congr a m1 m2 k hk

/-- `registerMethods` makes every path of its file set resolvable. -/
theorem registerMethods_isSome (files : List FileD) (m : MethodMap) (k : String)
    (h : k ∈ pathsOfFiles files) : (registerMethods m files k).isSome := by
  unfold registerMethods
  induction files generalizing m with
  | nil => simp [pathsOfFiles] at h
  | cons a l ih =>
    by_cases hl : k ∈ pathsOfFiles l
    · rw [List.foldl_cons]
      exact ih _ hl
    · have hk : k ∈ filePaths a := by
        rcases (mem_pathsOfFiles (a :: l) k).1 h with ⟨fd, hmd, hin⟩
        rcases List.mem_cons.1 hmd with h1 | h2
        · rw [← h1]
          exact hin
        · exact absurd ((mem_pathsOfFiles l k).2 ⟨fd, h2, hin⟩) hl
      have hrw := registerMethods_notin l (registerFile a m) k hl
      unfold registerMethods at hrw
      rw [List.foldl_cons, hrw]
      exact registerFile_isSome a m k hk

/-- C7: `Load` is additive and idempotent over the registered method map:
a second `Load` with a disjoint file set leaves every previously registered
dispatch path resolving exactly as before and adds the new methods (whose
entries depend only on the new files); and registering the same file set
twice leaves the map extensionally unchanged. -/
theorem claim_load_additive_idempotent (m : MethodMap) (fs1 fs2 fsr : List FileD) :
    (∀ k, k ∉ pathsOfFiles fs2 →
      registerMethods (registerMethods m fs1) fs2 k = registerMethods m fs1 k) ∧
    (∀ k, k ∈ pathsOfFiles fs2 →
      (registerMethods (registerMethods m fs1) fs2 k).isSome ∧
      registerMethods (registerMethods m fs1) fs2 k
        = registerMethods emptyMethodMap fs2 k) ∧
    (∀ k, registerMethods (registerMethods m fsr) fsr k = registerMethods m fsr k) := by
  refine ⟨?_, ?_, ?_⟩
  · intro k hk
    exact registerMethods_notin fs2 _ k hk
  · intro k hk
    exact ⟨registerMethods_isSome fs2 _ k hk, registerMethods_congr fs2 _ _ k hk⟩
  · intro k
    by_cases hk : k ∈ pathsOfFiles fsr
    · exact registerMethods_congr fsr _ _ k hk
    · rw [registerMethods_notin fsr _ k hk, registerMethods_notin fsr _ k hk]

/-- Witness for C7: two one-method files with disjoint dispatch paths. -/
theorem claim_load_additive_idempotent_witness :
    ("/pkg.S1/M1" ∉ pathsOfFiles [demoFile2]) ∧
    ("/pkg.S2/M2" ∈ pathsOfFiles [demoFile2]) ∧
    registerMethods (registerMethods emptyMethodMap [demoFile1]) [demoFile2] "/pkg.S1/M1"
      = registerMethods emptyMethodMap [demoFile1] "/pkg.S1/M1" ∧
    (registerMethods (registerMethods emptyMethodMap [demoFile1]) [demoFile2]
        "/pkg.S2/M2").isSome ∧
    registerMethods (registerMethods emptyMethodMap [demoFile1]) [demoFile1] "/pkg.S1/M1"
      = registerMethods emptyMethodMap [demoFile1] "/pkg.S1/M1" :=
  ⟨by decide, by decide,
   (claim_load_additive_idempotent emptyMethodMap [demoFile1] [demoFile2] [demoFile1]).1
     _ (by decide),
   ((claim_load_additive_idempotent emptyMethodMap [demoFile1] [demoFile2] [demoFile1]).2.1
     _ (by decide)).1,
   (claim_load_additive_idempotent emptyMethodMap [demoFile1] [demoFile2] [demoFile1]).2.2 _⟩

/-! ### Dependency walk lemmas (for `walkFileDescriptors`) -/

/-- Growing the visited set cannot increase the number of unseen files. -/
theorem unseenCount_mono (g : FDGraph) (seen1 seen2 : List String)
    (h : ∀ x, x ∈ seen1 → x ∈ seen2) :
    unseenCount g seen2 ≤ unseenCount g seen1 := by
  unfold unseenCount
  apply List.Sublist.length_le
  apply List.monotone_filter_right
  intro x hx
  simp only [decide_eq_true_eq] at hx ⊢
  intro hmem
  exact hx (h x hmem)

/-- Visiting a present, unvisited file strictly decreases the unseen count
(it may drop by more than one if the graph repeats a file name). -/
theorem filter_cons_seen_length (l : List String) (a : String) (seen : List String)
    (ha : a ∈ l) (hnot : a ∉ seen) :
    (l.filter (fun x => decide (x ∉ a :: seen))).length + 1
      ≤ (l.filter (fun x => decide (x ∉ seen))).length := by
  induction l with
  | nil => simp at ha
  | cons x l ih =>
    have hmon : (l.filter (fun x => decide (x ∉ a :: seen))).length
        ≤ (l.filter (fun x => decide (x ∉ seen))).length := by
      apply List.Sublist.length_le
      apply List.monotone_filter_right
      intro y hy
      simp only [decide_eq_true_eq, List.mem_cons] at hy ⊢
      intro hmem
      exact hy (Or.inr hmem)
    by_cases hxa : x = a
    · subst hxa
      have h1 : (decide (x ∉ x :: seen)) = false := by simp
      have h2 : (decide (x ∉ seen)) = true := by simpa using hnot
      simp only [List.filter_cons, h1, h2]
      simp only [Bool.false_eq_true, if_false, if_true, List.length_cons]
      omega
    · have ha2 : a ∈ l := by
        rcases List.mem_cons.1 ha with h1 | h1
        · exact absurd h1.symm hxa
        · exact h1
      by_cases hxs : x ∈ seen
      · have h1 : (decide (x ∉ a :: seen)) = false := by simp [hxs]
        have h2 : (decide (x ∉ seen)) = false := by simp [hxs]
        simp only [List.filter_cons, h1, h2, if_false]
        exact ih ha2
      · have h1 : (decide (x ∉ a :: seen)) = true := by simp [hxa, hxs]
        have h2 : (decide (x ∉ seen)) = true := by simp [hxs]
        simp only [List.filter_cons, h1, h2, if_true, List.length_cons]
        have := ih ha2
        omega

/-- Marking a present, unvisited file as seen decreases the unseen count. -/
theorem unseenCount_cons_lt (g : FDGraph) (seen : List String) (fd : String)
    (hin : fd ∈ graphNames g) (hnot : fd ∉ seen) :
    unseenCount g (fd :: seen) + 1 ≤ unseenCount g seen := by
  unfold unseenCount
  exact filter_cons_seen_length _ fd seen hin hnot

/-- In a closed graph, every declared dependency is a file of the graph. -/
theorem depsOf_subset (g : FDGraph) (hc : closedGraph g = true) (n : String) :
    ∀ d ∈ depsOf g n, d ∈ graphNames g := by
  intro d hd
  unfold depsOf at hd
  cases hf : g.find? (fun f => f.fname == n) with
  | none =>
    rw [hf] at hd
    simp at hd
  | some f =>
    rw [hf] at hd
    have hfm : f ∈ g := List.mem_of_find?_eq_some hf
    unfold closedGraph at hc
    rw [List.all_eq_true] at hc
    have h2 := hc f hfm
    rw [List.all_eq_true] at h2
    have h3 := h2 d hd
    simpa using h3

mutual
/-- The walk only ever grows the visited set. -/
theorem walk_seen_mono (g : FDGraph) (fuel : Nat) (seen : List String) (fd : String)
    (s2 outs : List String)
    (h : walkFileDescriptors g fuel seen fd = some (s2, outs)) :
    ∀ x, x ∈ seen → x ∈ s2 := by
  cases fuel with
  | zero => simp [walkFileDescriptors] at h
  | succ f =>
    by_cases hm : fd ∈ seen
    · simp only [walkFileDescriptors, if_pos hm, Option.some.injEq, Prod.mk.injEq] at h
      obtain ⟨h1, _⟩ := h
      intro x hx
      rw [← h1]
      exact hx
    · simp only [walkFileDescriptors, if_neg hm] at h
      cases hw : walkDeps g f (fd :: seen) (depsOf g fd) with
      | none =>
        rw [hw] at h
        simp at h
      | some p =>
        obtain ⟨ps, po⟩ := p
        rw [hw] at h
        simp only [Option.some.injEq, Prod.mk.injEq] at h
        obtain ⟨h1, _⟩ := h
        intro x hx
        rw [← h1]
        exact walkDeps_seen_mono g f (fd :: seen) (depsOf g fd) ps po hw x
          (List.mem_cons_of_mem _ hx)
termination_by (fuel, 0)
/-- The dependency-list walk only ever grows the visited set. -/
theorem walkDeps_seen_mono (g : FDGraph) (fuel : Nat) (seen : List String)
    (ds : List String) (s2 outs : List String)
    (h : walkDeps g fuel seen ds = some (s2, outs)) :
    ∀ x, x ∈ seen → x ∈ s2 := by
  cases ds with
  | nil =>
    simp only [walkDeps, Option.some.injEq, Prod.mk.injEq] at h
    obtain ⟨h1, _⟩ := h
    intro x hx
    rw [← h1]
    exact hx
  | cons d ds2 =>
    simp only [walkDeps] at h
    cases hw : walkFileDescriptors g fuel seen d with
    | none =>
      rw [hw] at h
      simp at h
    | some p =>
      obtain ⟨ps, po⟩ := p
      rw [hw] at h
      dsimp only at h
      cases hw2 : walkDeps g fuel ps ds2 with
      | none =>
        rw [hw2] at h
        simp at h
      | some q =>
        obtain ⟨qs, qo⟩ := q
        rw [hw2] at h
        simp only [Option.some.injEq, Prod.mk.injEq] at h
        obtain ⟨h1, _⟩ := h
        intro x hx
        rw [← h1]
        exact walkDeps_seen_mono g fuel ps ds2 qs qo hw2 x
          (walk_seen_mono g fuel seen d ps po hw x hx)
termination_by (fuel, ds.length + 1)
end

mutual
/-- The walk's output names are distinct, disjoint from the incoming
visited set, and the final visited set is exactly outputs plus the
incoming set. -/
theorem walk_outs_nodup (g : FDGraph) (fuel : Nat) (seen : List String) (fd : String)
    (s2 outs : List String)
    (h : walkFileDescriptors g fuel seen fd = some (s2, outs)) :
    outs.Nodup ∧ (∀ x ∈ outs, x ∉ seen) ∧ (∀ x, x ∈ s2 ↔ x ∈ outs ∨ x ∈ seen) := by
  cases fuel with
  | zero => simp [walkFileDescriptors] at h
  | succ f =>
    by_cases hm : fd ∈ seen
    · simp only [walkFileDescriptors, if_pos hm, Option.some.injEq, Prod.mk.injEq] at h
      obtain ⟨h1, h2⟩ := h
      subst h1
      subst h2
      refine ⟨List.nodup_nil, by simp, ?_⟩
      intro x
      simp
    · simp only [walkFileDescriptors, if_neg hm] at h
      cases hw : walkDeps g f (fd :: seen) (depsOf g fd) with
      | none =>
        rw [hw] at h
        simp at h
      | some p =>
        obtain ⟨ps, po⟩ := p
        rw [hw] at h
        simp only [Option.some.injEq, Prod.mk.injEq] at h
        obtain ⟨h1, h2⟩ := h
        subst h1
        subst h2
        obtain ⟨hnd, hdis, hiff⟩ :=
          walkDeps_outs_nodup g f (fd :: seen) (depsOf g fd) ps po hw
        refine ⟨?_, ?_, ?_⟩
        · rw [List.nodup_cons]
          exact ⟨fun hin => hdis fd hin (List.mem_cons_self fd seen), hnd⟩
        · intro x hx
          rcases List.mem_cons.1 hx with h1 | h1
          · rw [h1]
            exact hm
          · intro hxs
            exact hdis x h1 (List.mem_cons_of_mem _ hxs)
        · intro x
          have := hiff x
          simp only [List.mem_cons] at this ⊢
          tauto
termination_by (fuel, 0)
/-- Same invariant for the dependency-list walk. -/
theorem walkDeps_outs_nodup (g : FDGraph) (fuel : Nat) (seen : List String)
    (ds : List String) (s2 outs : List String)
    (h : walkDeps g fuel seen ds = some (s2, outs)) :
    outs.Nodup ∧ (∀ x ∈ outs, x ∉ seen) ∧ (∀ x, x ∈ s2 ↔ x ∈ outs ∨ x ∈ seen) := by
  cases ds with
  | nil =>
    simp only [walkDeps, Option.some.injEq, Prod.mk.injEq] at h
    obtain ⟨h1, h2⟩ := h
    subst h1
    subst h2
    refine ⟨List.nodup_nil, by simp, ?_⟩
    intro x
    simp
  | cons d ds2 =>
    simp only [walkDeps] at h
    cases hw : walkFileDescriptors g fuel seen d with
    | none =>
      rw [hw] at h
      simp at h
    | some p =>
      obtain ⟨ps, po⟩ := p
      rw [hw] at h
      dsimp only at h
      cases hw2 : walkDeps g fuel ps ds2 with
      | none =>
        rw [hw2] at h
        simp at h
      | some q =>
        obtain ⟨qs, qo⟩ := q
        rw [hw2] at h
        simp only [Option.some.injEq, Prod.mk.injEq] at h
        obtain ⟨h1, h2⟩ := h
        subst h1
        subst h2
        obtain ⟨hnd1, hdis1, hiff1⟩ := walk_outs_nodup g fuel seen d ps po hw
        obtain ⟨hnd2, hdis2, hiff2⟩ := walkDeps_outs_nodup g fuel ps ds2 qs qo hw2
        refine ⟨?_, ?_, ?_⟩
        · rw [List.nodup_append]
          refine ⟨hnd1, hnd2, ?_⟩
          intro x hx1 hx2
          exact hdis2 x hx2 ((hiff1 x).2 (Or.inl hx1))
        · intro x hx
          rcases List.mem_append.1 hx with h1 | h1
          · exact hdis1 x h1
          · intro hxs
            exact hdis2 x h1 ((hiff1 x).2 (Or.inr hxs))
        · intro x
          have hx1 := hiff1 x
          have hx2 := hiff2 x
          simp only [List.mem_append] at hx2 ⊢
          tauto
termination_by (fuel, ds.length + 1)
end

mutual
/-- Fuel covering the unseen-file count plus one always suffices: the walk
completes on every closed graph, cyclic ones included, because every
non-skipped call shrinks the set of unseen files. -/
theorem walk_fuel_sufficient (g : FDGraph) (fuel : Nat) (seen : List String)
    (fd : String) (hc : closedGraph g = true) (hin : fd ∈ graphNames g)
    (hfuel : unseenCount g seen + 1 ≤ fuel) :
    ∃ r, walkFileDescriptors g fuel seen fd = some r := by
  cases fuel with
  | zero => omega
  | succ f =>
    by_cases hm : fd ∈ seen
    · exact ⟨(seen, []), by simp [walkFileDescriptors, hm]⟩
    · have hcnt := unseenCount_cons_lt g seen fd hin hm
      obtain ⟨r, hr⟩ := walkDeps_fuel_sufficient g f (fd :: seen) (depsOf g fd) hc
        (depsOf_subset g hc fd) (by omega)
      obtain ⟨rs, ro⟩ := r
      exact ⟨(rs, fd :: ro), by simp [walkFileDescriptors, hm, hr]⟩
termination_by (fuel, 0)
/-- Fuel sufficiency for the dependency-list walk. -/
theorem walkDeps_fuel_sufficient (g : FDGraph) (fuel : Nat) (seen : List String)
    (ds : List String) (hc : closedGraph g = true)
    (hds : ∀ d ∈ ds, d ∈ graphNames g)
    (hfuel : unseenCount g seen + 1 ≤ fuel) :
    ∃ r, walkDeps g fuel seen ds = some r := by
  cases ds with
  | nil => exact ⟨(seen, []), by simp [walkDeps]⟩
  | cons d ds2 =>
    obtain ⟨r1, hr1⟩ := walk_fuel_sufficient g fuel seen d hc
      (hds d (List.mem_cons_self d ds2)) hfuel
    obtain ⟨s1, o1⟩ := r1
    have hmono := walk_seen_mono g fuel seen d s1 o1 hr1
    have hle : unseenCount g s1 ≤ unseenCount g seen :=
      unseenCount_mono g seen s1 hmono
    obtain ⟨r2, hr2⟩ := walkDeps_fuel_sufficient g fuel s1 ds2 hc
      (fun x hx => hds x (List.mem_cons_of_mem d hx)) (by omega)
    obtain ⟨t2, o2⟩ := r2
    exact ⟨(t2, o1 ++ o2), by simp [walkDeps, hr1, hr2]⟩
termination_by (fuel, ds.length + 1)
end

/-- C8: the descriptor dependency walk terminates on every closed
dependency graph, including cyclic ones, because the visited set keyed by
file name short-circuits repeats — recursion depth never exceeds the file
count, so fuel `|unseen files| + 1` completes the walk — and each distinct
file appears at most once in the output list. -/
theorem claim_walk_terminates_dedup (g : FDGraph) (root : String)
    (hc : closedGraph g = true) (hroot : root ∈ graphNames g) :
    ∃ s2 outs, walkFileDescriptors g (unseenCount g [] + 1) [] root = some (s2, outs)
      ∧ outs.Nodup := by
  obtain ⟨r, hr⟩ := walk_fuel_sufficient g (unseenCount g [] + 1) [] root hc hroot
    (le_refl _)
  exact ⟨r.1, r.2, hr, (walk_outs_nodup g _ [] root r.1 r.2 hr).1⟩

/-- Witness for C8 at a concrete cyclic two-file graph. -/
theorem claim_walk_terminates_dedup_witness :
    closedGraph demoCyclicGraph = true ∧ "a.proto" ∈ graphNames demoCyclicGraph ∧
    ∃ s2 outs, walkFileDescriptors demoCyclicGraph (unseenCount demoCyclicGraph [] + 1)
        [] "a.proto" = some (s2, outs) ∧ outs.Nodup :=
  ⟨by decide, by decide,
   claim_walk_terminates_dedup demoCyclicGraph "a.proto" (by decide) (by decide)⟩

/-! ### Stream delivery lemmas (for `stream.begin`) -/

/-- The receive loop queues exactly the decodable frames' `data` events,
in receipt order. -/
theorem streamReceiveLoop_events (out : FieldList) (frames : List (List Nat)) :
    (streamReceiveLoop out frames).1 = dataEventsOf out frames := by
  induction frames with
  | nil => rfl
  | cons f rest ih =>
    simp only [dataEventsOf] at ih ⊢
    cases hd : decodeMessage out f with
    | none => simp [streamReceiveLoop, List.filterMap_cons, hd, ih]
    | some v => simp [streamReceiveLoop, List.filterMap_cons, hd, ih]

/-- The receive loop logs one `failed to unmarshal message` line per
undecodable frame. -/
theorem streamReceiveLoop_logs (out : FieldList) (frames : List (List Nat)) :
    (streamReceiveLoop out frames).2
      = List.replicate (frames.countP (fun f => (decodeMessage out f).isNone))
          "failed to unmarshal message" := by
  induction frames with
  | nil => rfl
  | cons f rest ih =>
    cases hd : decodeMessage out f with
    | none =>
      simp [streamReceiveLoop, hd, List.countP_cons, ih, List.replicate_succ]
    | some v =>
      simp [streamReceiveLoop, hd, List.countP_cons, ih]

theorem countEnd_append (a b : List StreamEvent) :
    countEnd (a ++ b) = countEnd a + countEnd b := by
  induction a with
  | nil => simp [countEnd]
  | cons x l ih =>
    cases x with
    | dataEvent v => simp [countEnd, ih]
    | errorEvent c m => simp [countEnd, ih]
    | endEvent =>
      simp [countEnd, ih]
      omega

theorem countEnd_dataEventsOf (out : FieldList) (frames : List (List Nat)) :
    countEnd (dataEventsOf out frames) = 0 := by
  induction frames with
  | nil => rfl
  | cons f rest ih =>
    simp only [dataEventsOf] at ih ⊢
    cases hd : decodeMessage out f with
    | none => simp [List.filterMap_cons, hd, ih]
    | some v => simp [List.filterMap_cons, hd, countEnd, ih]

theorem countEnd_errorEventsOf (term : StreamTerm) :
    countEnd (errorEventsOf term) = 0 := by
  cases term <;> rfl

/-- C1: the events a server-streaming handle delivers are exactly — in
queue order — all `data` events of the received messages in receipt
order, then one `error` event exactly when the stream terminated with a
structured protocol failure, then exactly one `end` event, always last,
with nothing after it for that handle. -/
theorem claim_stream_event_order (out : FieldList) (frames : List (List Nat))
    (term : StreamTerm) :
    (stream.begin out frames term).1
      = dataEventsOf out frames ++ errorEventsOf term ++ [StreamEvent.endEvent] ∧
    ((stream.begin out frames term).1).getLast? = some .endEvent ∧
    countEnd (stream.begin out frames term).1 = 1 := by
  have hev := streamReceiveLoop_events out frames
  have h1 : (stream.begin out frames term).1
      = dataEventsOf out frames ++ errorEventsOf term ++ [StreamEvent.endEvent] := by
    cases term <;> simp [stream.begin, errorEventsOf, hev]
  refine ⟨h1, ?_, ?_⟩
  · rw [h1, List.append_assoc, ← List.append_assoc]
    exact List.getLast?_concat _
  · rw [h1, countEnd_append, countEnd_append, countEnd_dataEventsOf,
      countEnd_errorEventsOf]
    rfl

/-- Counterexample to C9 as stated: a message that fails to decode does
NOT terminate the stream.  With an undecodable first frame and a decodable
second frame, the handle still delivers the second frame's `data` event
(after logging the failure), so the decode error was skipped, not
terminal. -/
theorem claim_nonprotocol_error_counterexample :
    decodeMessage demoOut badFrame = none ∧
    (stream.begin demoOut [badFrame, goodFrame] .streamOk).1
      = [StreamEvent.dataEvent (.vcons (.vBool true) .vnil), StreamEvent.endEvent] ∧
    (stream.begin demoOut [badFrame, goodFrame] .streamOk).2
      = ["failed to unmarshal message"] := by
  refine ⟨?_, ?_, ?_⟩ <;>
    simp [stream.begin, streamReceiveLoop, decodeMessage, decodeF, decodeP,
      decodeRepLoop, decodeVarint, demoOut, badFrame, goodFrame, tagOf, wireType]

/-- C9 (amended): every stream background-thread error that is not a
structured protocol failure is logged and does not crash the stream: a
non-protocol receive error ends the loop, is logged, produces no `error`
event, and the `end` event still follows, exactly once and last; a message
that fails to decode is logged and skipped — the loop continues with the
remaining messages — and the `end` event still follows when the loop
exits. -/
theorem claim_nonprotocol_errors_amended (out : FieldList) (frames : List (List Nat))
    (m : String) :
    ("unexpected error from server: " ++ m)
        ∈ (stream.begin out frames (.streamOtherErr m)).2 ∧
    (stream.begin out frames (.streamOtherErr m)).1
      = dataEventsOf out frames ++ [StreamEvent.endEvent] ∧
    countEnd (stream.begin out frames (.streamOtherErr m)).1 = 1 ∧
    (streamReceiveLoop out frames).2
      = List.replicate (frames.countP (fun f => (decodeMessage out f).isNone))
          "failed to unmarshal message" := by
  have hev := streamReceiveLoop_events out frames
  have h1 : (stream.begin out frames (.streamOtherErr m)).1
      = dataEventsOf out frames ++ [StreamEvent.endEvent] := by
    simp [stream.begin, hev]
  refine ⟨?_, h1, ?_, streamReceiveLoop_logs out frames⟩
  · simp [stream.begin]
  · rw [h1, countEnd_append, countEnd_dataEventsOf]
    rfl

end GrpcWeb
